import Mathlib

/-!
Verification of the publish / generation pipeline of a LinkedIn auto-posting
agent.  The development shallowly embeds the Python sources
(`modules/linkedin.py`, `modules/generator.py`, `modules/image_provider.py`)
over `List Char` (Python strings are sequences of unicode code points, so
`List Char` indexing, slicing and length agree with Python `str` semantics).
Network effects are modelled by explicit oracle records; exceptions by
`Except` / `Option`.
-/

/-! ## Python string primitives -/

/-- Whitespace set used by Python `str.split()` / `str.strip()`
(ASCII whitespace, the C1 control block separators, and the unicode
space characters). -/
def pyIsSpace (c : Char) : Bool :=
  c = ' ' || c = '\t' || c = '\n' || c = '\x0b' || c = '\x0c' || c = '\r' ||
  c = '\x1c' || c = '\x1d' || c = '\x1e' || c = '\x1f' || c = '\x85' || c = '\xa0' ||
  c = ' ' || (' ' ≤ c && c ≤ ' ') || c = ' ' || c = ' ' ||
  c = ' ' || c = ' ' || c = '　'

/-- Python `str.strip()`: drop whitespace from both ends. -/
def pyStrip (l : List Char) : List Char :=
  ((l.dropWhile pyIsSpace).reverse.dropWhile pyIsSpace).reverse

/-- Python `str.replace(c, r)` for a single-character needle `c` and an
arbitrary replacement `r`: every occurrence of `c` is replaced, other
characters are kept. -/
def replace1 (c : Char) (r : List Char) : List Char → List Char
  | [] => []
  | x :: xs => (if x = c then r else [x]) ++ replace1 c r xs

/-- Python `text.replace('\r\n', '\n')`: a single left-to-right,
non-overlapping pass replacing the two-character needle. -/
def replaceCRLF : List Char → List Char
  | '\r' :: '\n' :: rest => '\n' :: replaceCRLF rest
  | c :: rest => c :: replaceCRLF rest
  | [] => []

theorem replace1_append (c : Char) (r l₁ l₂ : List Char) :
    replace1 c r (l₁ ++ l₂) = replace1 c r l₁ ++ replace1 c r l₂ := by
  induction l₁ with
  | nil => rfl
  | cons x xs ih => simp [replace1, ih]

theorem mem_replace1 {x c : Char} {r l : List Char} (h : x ∈ replace1 c r l) :
    x ∈ r ∨ (x ∈ l ∧ x ≠ c) := by
  induction l with
  | nil => simp [replace1] at h
  | cons y ys ih =>
    simp only [replace1, List.mem_append] at h
    rcases h with h | h
    · by_cases hy : y = c
      · subst hy; simp [if_pos rfl] at h; exact Or.inl h
      · rw [if_neg hy] at h
        simp at h
        subst h
        exact Or.inr ⟨List.mem_cons_self _ _, hy⟩
    · rcases ih h with h' | ⟨hm, hne⟩
      · exact Or.inl h'
      · exact Or.inr ⟨List.mem_cons_of_mem _ hm, hne⟩

/-! ## `linkedin.py`: text sanitization in `create_post` (C1) -/

/-- The character set escaped by `LinkedInClient._escape_linkedin_text`. -/
def special_chars : List Char := ['(', ')', '[', ']', '{', '}', '<', '>', '@', '|', '~', '_']

/-- The loop body of `_escape_linkedin_text`, folded over `special_chars`:
`for char in special_chars: text = text.replace(char, f"\\{char}")`. -/
def applyEscapes (cs : List Char) (l : List Char) : List Char :=
  cs.foldl (fun acc ch => replace1 ch ['\\', ch] acc) l

/-- `LinkedInClient._escape_linkedin_text`. -/
def escape_linkedin_text (l : List Char) : List Char :=
  applyEscapes special_chars l

/-- Pointwise escaping of one character, as the spec words it: each character
of the special set receives a preceding backslash. -/
def escChar (x : Char) : List Char :=
  if x ∈ special_chars then ['\\', x] else [x]

/-- Pointwise escaping of a text, following the spec's words. -/
def escapePointwise : List Char → List Char
  | [] => []
  | x :: xs => escChar x ++ escapePointwise xs

theorem applyEscapes_append (cs l₁ l₂ : List Char) :
    applyEscapes cs (l₁ ++ l₂) = applyEscapes cs l₁ ++ applyEscapes cs l₂ := by
  induction cs generalizing l₁ l₂ with
  | nil => rfl
  | cons c cs ih =>
    simp only [applyEscapes, List.foldl_cons] at *
    rw [replace1_append, ih]

theorem applyEscapes_nil (cs : List Char) : applyEscapes cs [] = [] := by
  induction cs with
  | nil => rfl
  | cons c cs ih => simpa [applyEscapes, replace1, List.foldl_cons] using ih

theorem applyEscapes_single_notMem {x : Char} {cs : List Char} (h : x ∉ cs) :
    applyEscapes cs [x] = [x] := by
  induction cs with
  | nil => rfl
  | cons c cs ih =>
    have hxc : x ≠ c := fun he => h (he ▸ List.mem_cons_self _ _)
    have : replace1 c ['\\', c] [x] = [x] := by
      simp [replace1, if_neg hxc]
    simp only [applyEscapes, List.foldl_cons, this]
    exact ih (fun hm => h (List.mem_cons_of_mem _ hm))

theorem applyEscapes_single_mem {x : Char} (h : x ∈ special_chars) :
    applyEscapes special_chars [x] = ['\\', x] := by
  fin_cases h <;> decide

theorem escape_eq_pointwise (l : List Char) :
    escape_linkedin_text l = escapePointwise l := by
  induction l with
  | nil => exact applyEscapes_nil _
  | cons x xs ih =>
    have hsplit : escape_linkedin_text (x :: xs)
        = applyEscapes special_chars [x] ++ applyEscapes special_chars xs := by
      have : (x :: xs) = [x] ++ xs := rfl
      rw [escape_linkedin_text, this, applyEscapes_append]
    rw [hsplit, escapePointwise, escChar]
    by_cases hx : x ∈ special_chars
    · rw [applyEscapes_single_mem hx, if_pos hx]
      exact congrArg (fun l => ['\\', x] ++ l) ih
    · rw [applyEscapes_single_notMem hx, if_neg hx]
      exact congrArg (fun l => [x] ++ l) ih

theorem mem_escapePointwise {x : Char} {l : List Char}
    (h : x ∈ escapePointwise l) : x = '\\' ∨ x ∈ l := by
  induction l with
  | nil => simp [escapePointwise] at h
  | cons y ys ih =>
    simp only [escapePointwise, List.mem_append] at h
    rcases h with h | h
    · rw [escChar] at h
      by_cases hy : y ∈ special_chars
      · rw [if_pos hy] at h
        simp at h
        rcases h with h | h
        · exact Or.inl h
        · subst h; exact Or.inr (List.mem_cons_self _ _)
      · rw [if_neg hy] at h
        simp at h
        subst h
        exact Or.inr (List.mem_cons_self _ _)
    · rcases ih h with h | h
      · exact Or.inl h
      · exact Or.inr (List.mem_cons_of_mem _ h)

/-- The text-normalization pipeline of `LinkedInClient.create_post`
(lines 78–85): CRLF and lone-CR normalization, typographic dash
replacement, then special-character escaping. -/
def create_post_sanitize (t : List Char) : List Char :=
  escape_linkedin_text
    (replace1 '–' ['-'] (replace1 '—' ['-'] (replace1 '\r' ['\n'] (replaceCRLF t))))

/-- The fixed continuation marker appended on truncation. -/
def truncation_marker : List Char := "... [Full post on profile]".toList

/-- The commentary actually transmitted by `create_post` (lines 87–91):
sanitized text, truncated to 2900 code points plus the continuation marker
when it exceeds 3000. -/
def create_post_commentary (t : List Char) : List Char :=
  if 3000 < (create_post_sanitize t).length then
    (create_post_sanitize t).take 2900 ++ truncation_marker
  else
    create_post_sanitize t

/-- The commentary as the spec describes it: same line-ending and dash
normalization, but with the escaping stated pointwise (each special
character receives a preceding backslash), then the same truncation rule. -/
def claimed_commentary (t : List Char) : List Char :=
  if 3000 < (escapePointwise (replace1 '–' ['-'] (replace1 '—' ['-']
      (replace1 '\r' ['\n'] (replaceCRLF t))))).length then
    (escapePointwise (replace1 '–' ['-'] (replace1 '—' ['-']
      (replace1 '\r' ['\n'] (replaceCRLF t))))).take 2900 ++ truncation_marker
  else
    escapePointwise (replace1 '–' ['-'] (replace1 '—' ['-']
      (replace1 '\r' ['\n'] (replaceCRLF t))))

/-- C1. `create_post`'s sanitization normalizes the line endings, replaces the
typographic dashes by a hyphen, and escapes each character of the special set
with a preceding backslash (the sequential `str.replace` loop of
`_escape_linkedin_text` coincides with the pointwise description); when the
sanitized text exceeds 3000 code points the transmitted commentary is its
first 2900 code points followed by the fixed continuation marker.  The
sanitized text never contains a carriage return or a typographic dash, and
the text `"Deadlock resolution (in sortation)"` has its parentheses escaped. -/
theorem commentary_sanitization_spec :
    (∀ t, create_post_commentary t = claimed_commentary t) ∧
    (∀ t, '\r' ∉ create_post_sanitize t ∧ '—' ∉ create_post_sanitize t ∧
      '–' ∉ create_post_sanitize t) ∧
    create_post_commentary "Deadlock resolution (in sortation)".toList
      = "Deadlock resolution \\(in sortation\\)".toList := by
  refine ⟨?_, ?_, by decide⟩
  · intro t
    rw [create_post_commentary, claimed_commentary, create_post_sanitize,
      escape_eq_pointwise]
  · intro t
    refine ⟨?_, ?_, ?_⟩
    · intro hmem
      rw [create_post_sanitize, escape_eq_pointwise] at hmem
      rcases mem_escapePointwise hmem with h | h
      · exact absurd h (by decide)
      · rcases mem_replace1 h with h' | ⟨h', _⟩
        · exact absurd h' (by decide)
        · rcases mem_replace1 h' with h'' | ⟨h'', _⟩
          · exact absurd h'' (by decide)
          · rcases mem_replace1 h'' with h''' | ⟨_, hne⟩
            · exact absurd h''' (by decide)
            · exact hne rfl
    · intro hmem
      rw [create_post_sanitize, escape_eq_pointwise] at hmem
      rcases mem_escapePointwise hmem with h | h
      · exact absurd h (by decide)
      · rcases mem_replace1 h with h' | ⟨h', _⟩
        · exact absurd h' (by decide)
        · rcases mem_replace1 h' with h'' | ⟨_, hne⟩
          · exact absurd h'' (by decide)
          · exact hne rfl
    · intro hmem
      rw [create_post_sanitize, escape_eq_pointwise] at hmem
      rcases mem_escapePointwise hmem with h | h
      · exact absurd h (by decide)
      · rcases mem_replace1 h with h' | ⟨_, hne⟩
        · exact absurd h' (by decide)
        · exact hne rfl

/-! ## Generic substring replacement (Python `str.replace`, multi-char needle) -/

/-- Python `str.replace(needle, repl)` for a multi-character needle: one
left-to-right, non-overlapping pass over the text. -/
def replaceSub (needle repl : List Char) : List Char → List Char
  | [] => []
  | c :: rest =>
    if h : needle ≠ [] ∧ needle <+: (c :: rest) then
      repl ++ replaceSub needle repl ((c :: rest).drop needle.length)
    else
      c :: replaceSub needle repl rest
termination_by l => l.length
decreasing_by
  · simp only [List.length_drop, List.length_cons]
    have : 0 < needle.length := List.length_pos.mpr h.1
    omega
  · simp

theorem infix_of_infix_tail {needle : List Char} {c : Char} {rest : List Char}
    (h : needle <:+: rest) : needle <:+: (c :: rest) := by
  rcases h with ⟨s, t, hst⟩
  exact ⟨c :: s, t, by rw [← hst]; rfl⟩

theorem replaceSub_of_not_infix {needle repl l : List Char}
    (h : ¬ needle <:+: l) : replaceSub needle repl l = l := by
  induction l with
  | nil => simp [replaceSub]
  | cons c rest ih =>
    rw [replaceSub, dif_neg]
    · rw [ih (fun hi => h (infix_of_infix_tail hi))]
    · rintro ⟨hne, hpre⟩
      rcases hpre with ⟨t, ht⟩
      exact h ⟨[], t, by simpa using ht⟩

theorem replaceSub_head {needle repl rest : List Char} (hne : needle ≠ [])
    (hni : ¬ needle <:+: rest) :
    replaceSub needle repl (needle ++ rest) = repl ++ rest := by
  cases needle with
  | nil => exact absurd rfl hne
  | cons n ns =>
    have hcons : (n :: ns) ++ rest = n :: (ns ++ rest) := rfl
    rw [hcons, replaceSub, dif_pos ⟨hne, ⟨rest, by simp⟩⟩]
    have hdrop : (n :: (ns ++ rest)).drop (n :: ns).length = rest := by
      simp only [List.length_cons, List.drop_succ_cons]
      exact List.drop_left ns rest
    rw [hdrop, replaceSub_of_not_infix hni]

/-! ## `linkedin.py`: authority-URN normalization (C2) -/

def member_needle : List Char := "urn:li:member:".toList

def person_needle : List Char := "urn:li:person:".toList

/-- Owner-field normalization in `LinkedInClient.register_image`
(lines 23–27): rewrite a member URN to person form. -/
def register_image_owner (author_urn : List Char) : List Char :=
  if member_needle <:+: author_urn then
    replaceSub member_needle person_needle author_urn
  else author_urn

/-- Author-field normalization in `LinkedInClient.create_post`
(lines 74–76): the same rewriting as in the register step. -/
def create_post_author (author_urn : List Char) : List Char :=
  if member_needle <:+: author_urn then
    replaceSub member_needle person_needle author_urn
  else author_urn

/-- The member needle cannot occur inside `person_needle ++ id` unless it
occurs inside `id`: an occurrence can neither start inside the person
prefix (checked position by position) nor straddle its end. -/
theorem member_not_infix_person_append {id : List Char}
    (h : ¬ member_needle <:+: id) : ¬ member_needle <:+: (person_needle ++ id) := by
  rintro ⟨s, t, hst⟩
  rw [List.append_assoc] at hst
  have hps : person_needle.length = 14 := by decide
  have hms : member_needle.length = 14 := by decide
  rcases Nat.lt_or_ge s.length 14 with hk | hk
  · have hL : List.take 14 (s ++ (member_needle ++ t))
        = s ++ member_needle.take (14 - s.length) := by
      rw [List.take_append_eq_append_take, List.take_append_eq_append_take,
        List.take_of_length_le (Nat.le_of_lt hk), hms]
      have hz : 14 - s.length - 14 = 0 := by omega
      rw [hz, List.take_zero, List.append_nil]
    have hR : List.take 14 (person_needle ++ id) = person_needle := by
      rw [List.take_append_eq_append_take, hps, Nat.sub_self, List.take_zero,
        List.append_nil, List.take_of_length_le (Nat.le_of_eq hps)]
    have htake : s ++ member_needle.take (14 - s.length) = person_needle := by
      rw [← hL, ← hR, hst]
    have hdropk := congrArg (List.drop s.length) htake
    rw [List.drop_append_eq_append_drop, List.drop_length, Nat.sub_self,
      List.drop_zero, List.nil_append] at hdropk
    set k := s.length with hkdef
    interval_cases k <;> exact absurd hdropk (by decide)
  · have hdrop := congrArg (List.drop 14) hst
    rw [List.drop_append_eq_append_drop] at hdrop
    have hzero : 14 - s.length = 0 := by omega
    rw [hzero, List.drop_zero] at hdrop
    rw [List.drop_append_eq_append_drop, hps, Nat.sub_self, List.drop_zero] at hdrop
    rw [show List.drop 14 person_needle = [] from by decide, List.nil_append] at hdrop
    exact h ⟨s.drop 14, t, by rw [List.append_assoc]; exact hdrop⟩

/-- C2.  For every identifier not containing the member needle itself: a
member-form URN is rewritten to the equivalent person form both in the
register-step owner field and in the create-post author field, and a
person-form URN passes through both unchanged. -/
theorem author_urn_normalization (id : List Char)
    (h : ¬ member_needle <:+: id) :
    register_image_owner (member_needle ++ id) = person_needle ++ id ∧
    create_post_author (member_needle ++ id) = person_needle ++ id ∧
    register_image_owner (person_needle ++ id) = person_needle ++ id ∧
    create_post_author (person_needle ++ id) = person_needle ++ id := by
  have hmem : member_needle <:+: (member_needle ++ id) := ⟨[], id, by simp⟩
  have hne : member_needle ≠ [] := by decide
  have hrw : replaceSub member_needle person_needle (member_needle ++ id)
      = person_needle ++ id := replaceSub_head hne h
  have hnp : ¬ member_needle <:+: (person_needle ++ id) :=
    member_not_infix_person_append h
  refine ⟨?_, ?_, ?_, ?_⟩
  · rw [register_image_owner, if_pos hmem, hrw]
  · rw [create_post_author, if_pos hmem, hrw]
  · rw [register_image_owner, if_neg hnp]
  · rw [create_post_author, if_neg hnp]

/-- Witness for C2 at the concrete identifier `AbC123`. -/
theorem author_urn_normalization_witness :
    ¬ member_needle <:+: "AbC123".toList ∧
    register_image_owner "urn:li:member:AbC123".toList
      = "urn:li:person:AbC123".toList ∧
    create_post_author "urn:li:member:AbC123".toList
      = "urn:li:person:AbC123".toList ∧
    register_image_owner "urn:li:person:AbC123".toList
      = "urn:li:person:AbC123".toList := by
  have h : ¬ member_needle <:+: "AbC123".toList := by decide
  have hm : "urn:li:member:AbC123".toList = member_needle ++ "AbC123".toList := by decide
  have hp : "urn:li:person:AbC123".toList = person_needle ++ "AbC123".toList := by decide
  have hmain := author_urn_normalization "AbC123".toList h
  exact ⟨h, by rw [hm, hp]; exact hmain.1, by rw [hm, hp]; exact hmain.2.1,
    by rw [hp]; exact hmain.2.2.1⟩

/-! ## `linkedin.py`: create-post result extraction (C3) -/

/-- The response of the create-post call, as far as result extraction reads
it: the HTTP status, the two optional identifier headers (a header carried
with an empty value is `some []`, an absent header is `none`), and the body
text used in the failure message. -/
structure PostResponse where
  status : Nat
  restliId : Option (List Char)
  linkedinId : Option (List Char)
  body : List Char

/-- The literal sentinel used when neither header carries an identifier. -/
def unknown_id : List Char := "Unknown ID".toList

/-- Result extraction of `LinkedInClient.create_post` (lines 137–147):
non-200/201 statuses raise; otherwise `post_id = headers.get('x-restli-id')`
followed by `if not post_id: post_id = headers.get('x-linkedin-id',
'Unknown ID')`.  Python truthiness makes an *empty* `x-restli-id` value fall
through to the fallback as well. -/
def create_post_extract_id (r : PostResponse) : Except (List Char) (List Char) :=
  if r.status = 200 ∨ r.status = 201 then
    Except.ok (match r.restliId with
      | none => r.linkedinId.getD unknown_id
      | some v => if v = [] then r.linkedinId.getD unknown_id else v)
  else
    Except.error ("Failed to publish post: ".toList ++ r.body)

/-- The identifier as the claim words it: the value of `x-restli-id` if the
header is present, otherwise the value of `x-linkedin-id` if present,
otherwise the sentinel. -/
def claimed_post_id (r : PostResponse) : List Char :=
  match r.restliId with
  | some v => v
  | none => r.linkedinId.getD unknown_id

/-- C3, counterexample.  A 201 response carrying the header `x-restli-id`
with an empty value: the claim says the returned identifier is that header's
value (the empty string), but the code's truthiness test falls through to
the sentinel. -/
theorem post_id_empty_header_counterexample :
    create_post_extract_id ⟨201, some [], none, []⟩ = Except.ok unknown_id ∧
    claimed_post_id ⟨201, some [], none, []⟩ = [] ∧
    unknown_id ≠ [] := by
  refine ⟨rfl, rfl, by decide⟩

/-- C3 as amended.  For every response with status 200 or 201, extraction
never raises; the returned identifier is the value of `x-restli-id` when
that header is present with a non-empty value, otherwise the value of
`x-linkedin-id` when present (an empty-valued `x-restli-id` is treated as
absent), otherwise the literal sentinel `"Unknown ID"`. -/
theorem post_id_extraction_amended (r : PostResponse)
    (hst : r.status = 200 ∨ r.status = 201)
    (hne : ∀ v, r.restliId = some v → v ≠ []) :
    create_post_extract_id r = Except.ok (claimed_post_id r) := by
  rw [create_post_extract_id, if_pos hst, claimed_post_id]
  cases hr : r.restliId with
  | none => rfl
  | some v =>
    have : v ≠ [] := hne v hr
    simp [this]

/-- Witness for C3: the spec's scenario, a 201 response with empty body and
`x-restli-id: abc123` yields the post id `abc123`. -/
theorem post_id_extraction_amended_witness :
    ((201 : Nat) = 200 ∨ (201 : Nat) = 201) ∧
    create_post_extract_id ⟨201, some "abc123".toList, none, []⟩
      = Except.ok "abc123".toList := by
  have h := post_id_extraction_amended ⟨201, some "abc123".toList, none, []⟩
    (Or.inr rfl) (by intro v hv; cases hv; decide)
  exact ⟨Or.inr rfl, by rw [h]; rfl⟩

/-! ## `generator.py`: model fallback loop (C4) -/

/-- The ordered candidate list `model_fallbacks` of
`ContentGenerator.generate_full_content`. -/
def model_fallbacks : List (List Char) :=
  ["nano-banana-pro-preview".toList, "gemini-3-flash-preview".toList,
   "gemini-2.0-flash-exp".toList, "gemini-1.5-flash-latest".toList]

/-- The `for current_model in model_fallbacks: try ... break / except ...
continue / else: raise` loop.  The provider oracle maps a model id to either
the response text or a raised error.  On success the loop stops with the
stripped response text; on failure it advances remembering the error; the
`for`-`else` raise carries the last error (`none` if the list was empty). -/
def tryModels (provider : List Char → Except (List Char) (List Char)) :
    List (List Char) → Option (List Char) → Except (Option (List Char)) (List Char × List Char)
  | [], lastExc => Except.error lastExc
  | m :: rest, lastExc =>
    match provider m with
    | Except.ok t => Except.ok (m, pyStrip t)
    | Except.error e => tryModels provider rest (some e)

/-! ## Python `str.split` on a substring separator, and tag extraction -/

/-- Worker for Python `str.split(sep)` with a non-empty separator: `acc`
holds the (reversed) current part; each separator occurrence closes a
part. -/
def splitAux (sep : List Char) (acc : List Char) : List Char → List (List Char)
  | [] => [acc.reverse]
  | c :: rest =>
    if h : sep ≠ [] ∧ sep <+: (c :: rest) then
      acc.reverse :: splitAux sep [] ((c :: rest).drop sep.length)
    else
      splitAux sep (c :: acc) rest
termination_by l => l.length
decreasing_by
  · simp only [List.length_drop, List.length_cons]
    have : 0 < sep.length := List.length_pos.mpr h.1
    omega
  · simp

/-- Python `text.split(sep)` for a non-empty separator. -/
def pySplit (sep l : List Char) : List (List Char) := splitAux sep [] l

/-- The head character of `sep` occurs nowhere else in `sep`.  All six
section tags satisfy this (their `[` appears only in front), which rules
out any occurrence of a tag straddling a boundary that ends right before
an explicit copy of the tag. -/
def headUnique (sep : List Char) : Prop :=
  ∀ j, j < sep.length → 0 < j → sep[j]? ≠ sep[0]?

instance (sep : List Char) : Decidable (headUnique sep) := by
  unfold headUnique
  infer_instance

theorem not_prefix_append_sep {sep a x : List Char} (hu : headUnique sep)
    (hni : ¬ sep <:+: a) (h0 : a ≠ []) : ¬ sep <+: (a ++ (sep ++ x)) := by
  rintro ⟨t, ht⟩
  rcases Nat.lt_or_ge a.length sep.length with hlt | hge
  · have hidx := congrArg (fun l => l[a.length]?) ht
    simp only at hidx
    rw [List.getElem?_append, if_pos hlt] at hidx
    rw [List.getElem?_append,
      if_neg (by omega : ¬ a.length < a.length)] at hidx
    rw [Nat.sub_self] at hidx
    have hsep0 : 0 < sep.length := by
      rcases a with _ | ⟨c, a'⟩
      · exact absurd rfl h0
      · exact Nat.lt_of_le_of_lt (Nat.zero_le _) hlt
    rw [List.getElem?_append, if_pos hsep0] at hidx
    have h0len : 0 < a.length := by
      rcases a with _ | ⟨c, a'⟩
      · exact absurd rfl h0
      · simp
    exact hu a.length hlt h0len hidx
  · have htake := congrArg (List.take sep.length) ht
    rw [List.take_left] at htake
    rw [List.take_append_eq_append_take] at htake
    have hz : sep.length - a.length = 0 := by omega
    rw [hz, List.take_zero, List.append_nil] at htake
    have hpre : sep <+: a := htake ▸ List.take_prefix _ _
    rcases hpre with ⟨t', ht'⟩
    exact hni ⟨[], t', by simpa using ht'⟩

theorem splitAux_of_not_infix {sep l : List Char} (h : ¬ sep <:+: l) :
    ∀ acc, splitAux sep acc l = [acc.reverse ++ l] := by
  induction l with
  | nil => intro acc; simp [splitAux]
  | cons c rest ih =>
    intro acc
    rw [splitAux, dif_neg]
    · rw [ih (fun hi => h (infix_of_infix_tail hi)) (c :: acc)]
      simp
    · rintro ⟨hne, hpre⟩
      rcases hpre with ⟨t, ht⟩
      exact h ⟨[], t, by simpa using ht⟩

theorem splitAux_append_sep {sep x : List Char} (hu : headUnique sep)
    (hne : sep ≠ []) :
    ∀ {a : List Char}, ¬ sep <:+: a →
    ∀ acc, splitAux sep acc (a ++ (sep ++ x))
      = (acc.reverse ++ a) :: splitAux sep [] x := by
  intro a
  induction a with
  | nil =>
    intro _ acc
    cases sep with
    | nil => exact absurd rfl hne
    | cons s ss =>
      have hcons : ([] : List Char) ++ ((s :: ss) ++ x) = s :: (ss ++ x) := rfl
      rw [hcons, splitAux, dif_pos ⟨hne, ⟨x, by simp⟩⟩]
      have hdrop : (s :: (ss ++ x)).drop (s :: ss).length = x := by
        simp only [List.length_cons, List.drop_succ_cons]
        exact List.drop_left ss x
      rw [hdrop]
      simp
  | cons c a' ih =>
    intro hni acc
    have hassoc : (c :: a') ++ (sep ++ x) = c :: (a' ++ (sep ++ x)) := rfl
    rw [hassoc, splitAux, dif_neg]
    · rw [ih (fun hi => hni (infix_of_infix_tail hi)) (c :: acc)]
      simp
    · rintro ⟨_, hpre⟩
      exact not_prefix_append_sep hu hni (List.cons_ne_nil c a') (hassoc ▸ hpre)

/-- The tag-extraction helper `extract` of `generate_full_content`
(lines 95–99): `text.split(tag_start)[1].split(tag_end)[0].strip()`, with the
`IndexError` on a missing start tag caught and turned into `""`. -/
def extract (tag_start tag_end text : List Char) : List Char :=
  match (pySplit tag_start text)[1]? with
  | none => []
  | some seg => pyStrip ((pySplit tag_end seg).headD [])

theorem extract_wellFormed {ts te a mid post : List Char}
    (hu1 : headUnique ts) (hu2 : headUnique te) (hne1 : ts ≠ []) (hne2 : te ≠ [])
    (h1 : ¬ ts <:+: a) (h2 : ¬ ts <:+: (mid ++ (te ++ post))) (h3 : ¬ te <:+: mid) :
    extract ts te (a ++ (ts ++ (mid ++ (te ++ post)))) = pyStrip mid := by
  have e1 : pySplit ts (a ++ (ts ++ (mid ++ (te ++ post))))
      = a :: [mid ++ (te ++ post)] := by
    rw [pySplit, splitAux_append_sep hu1 hne1 h1 [],
      splitAux_of_not_infix h2 []]
    simp
  have e2 : pySplit te (mid ++ (te ++ post)) = mid :: splitAux te [] post := by
    rw [pySplit, splitAux_append_sep hu2 hne2 h3 []]
    simp
  rw [extract, e1]
  simp only [List.getElem?_cons_succ, List.getElem?_cons_zero]
  rw [e2]
  rfl

theorem extract_missing_start {ts te text : List Char} (h : ¬ ts <:+: text) :
    extract ts te text = [] := by
  rw [extract, pySplit, splitAux_of_not_infix h []]
  rfl

/-! ## `generator.py`: the six section tags -/

def topic_start : List Char := "[TOPIC_START]".toList
def topic_end : List Char := "[TOPIC_END]".toList
def post_start : List Char := "[POST_START]".toList
def post_end : List Char := "[POST_END]".toList
def image_prompt_start : List Char := "[IMAGE_PROMPT_START]".toList
def image_prompt_end : List Char := "[IMAGE_PROMPT_END]".toList

/-! ## `generator.py`: markdown-bold conversion (`_convert_markdown_bold`) -/

/-- The `normal` translation table of `_convert_markdown_bold`. -/
def normal_table : List Char := "ABCDEFGHIJKLMNOPQRSTUVWXYZabcdefghijklmnopqrstuvwxyz0123456789".toList

/-- The `bold` translation table of `_convert_markdown_bold`
(mathematical sans-serif bold letters and digits). -/
def bold_table : List Char := "𝗔𝗕𝗖𝗗𝗘𝗙𝗚𝗛𝗜𝗝𝗞𝗟𝗠𝗡𝗢𝗣𝗤𝗥𝗦𝗧𝗨𝗩𝗪𝗫𝗬𝗭𝗮𝗯𝗰𝗱𝗲𝗳𝗴𝗵𝗶𝗷𝗸𝗹𝗺𝗻𝗼𝗽𝗾𝗿𝘀𝘁𝘂𝘃𝘄𝘅𝘆𝘇𝟬𝟭𝟮𝟯𝟰𝟱𝟲𝟳𝟴𝟵".toList

/-- `str.maketrans(normal, bold)` followed by `content.translate(...)`,
per character: characters in the `normal` table map to the corresponding
`bold` glyph, all others are unchanged. -/
def translate_char (c : Char) : Char :=
  ((normal_table.zip bold_table).find? (fun p => p.1 = c)).elim c (fun p => p.2)

theorem dropWhileLengthLe (p : Char → Bool) (l : List Char) :
    (l.dropWhile p).length ≤ l.length :=
  List.Sublist.length_le (List.dropWhile_sublist _)

/-- Worker for Python `str.split()`: accumulate the current
whitespace-free run (reversed) and close it at each whitespace
character. -/
def pyWordsAux (cur : List Char) : List Char → List (List Char)
  | [] => if cur = [] then [] else [cur.reverse]
  | c :: rest =>
    if pyIsSpace c then
      if cur = [] then pyWordsAux [] rest else cur.reverse :: pyWordsAux [] rest
    else pyWordsAux (c :: cur) rest

/-- Python `content.split()`: the list of maximal whitespace-free runs. -/
def pyWords (l : List Char) : List (List Char) := pyWordsAux [] l

/-- `word_count = len(content.split())`. -/
def word_count (l : List Char) : Nat := (pyWords l).length

/-- The `smart_replace` callback of `_convert_markdown_bold`: a captured
group of at most 20 words is transliterated through the bold table, longer
groups are returned verbatim (markers dropped either way). -/
def smart_replace (content : List Char) : List Char :=
  if word_count content ≤ 20 then content.map translate_char else content

/-- Locate the lazy closing `**` of the regex `\*\*(.*?)\*\*` in the text
after an opening marker: returns the (shortest) enclosed content and the
text after the closing marker.  `.` does not match a newline, so a newline
before any closing marker aborts the match. -/
def findClose : List Char → Option (List Char × List Char)
  | [] => none
  | c :: rest =>
    if c = '*' ∧ rest.head? = some '*' then some ([], rest.tail)
    else if c = '\n' then none
    else (findClose rest).map (fun p => (c :: p.1, p.2))

theorem findClose_length {l content rest : List Char}
    (h : findClose l = some (content, rest)) :
    content.length + rest.length + 2 = l.length := by
  induction l generalizing content rest with
  | nil => simp [findClose] at h
  | cons c l' ih =>
    rw [findClose] at h
    by_cases h1 : c = '*' ∧ l'.head? = some '*'
    · rw [if_pos h1] at h
      simp only [Option.some.injEq, Prod.mk.injEq] at h
      obtain ⟨hc, hr⟩ := h
      subst hc
      subst hr
      cases l' with
      | nil => simp at h1
      | cons d l'' => simp only [List.tail_cons, List.length_cons, List.length_nil]; omega
    · rw [if_neg h1] at h
      by_cases h2 : c = '\n'
      · rw [if_pos h2] at h
        simp at h
      · rw [if_neg h2] at h
        cases hfc : findClose l' with
        | none => rw [hfc] at h; simp at h
        | some p =>
          rw [hfc] at h
          simp at h
          obtain ⟨hc, hr⟩ := h
          subst hc
          subst hr
          have hih := ih hfc
          simp only [List.length_cons]
          omega

/-- `ContentGenerator._convert_markdown_bold` (lines 119–139):
`re.sub(r'\*\*(.*?)\*\*', smart_replace, text)` with leftmost, lazy
matching.  An opening `**` without a reachable closing marker is left in
place and scanning resumes one character later, exactly as `re.sub` does. -/
def convert_markdown_bold : List Char → List Char
  | [] => []
  | c :: rest =>
    if c = '*' ∧ rest.head? = some '*' then
      match hfc : findClose rest.tail with
      | some p => smart_replace p.1 ++ convert_markdown_bold p.2
      | none => c :: convert_markdown_bold rest
    else c :: convert_markdown_bold rest
termination_by l => l.length
decreasing_by
  all_goals simp only [List.length_cons]
  all_goals try omega
  have hlen := findClose_length hfc
  simp only [List.length_tail] at hlen
  omega

/-! ## `generator.py`: field assembly and the full generation call -/

/-- The record returned by `generate_full_content`
(`{"topic": ..., "text": ..., "image_prompt": ...}`). -/
structure GeneratedContent where
  topic : List Char
  text : List Char
  image_prompt : List Char
deriving DecidableEq

/-- The constant topic placeholder. -/
def topic_default : List Char := "Logistics Tech Update".toList

/-- The image-prompt template prefix (`f"Futuristic logistics technology
visualization related to {topic}"`). -/
def image_prompt_template : List Char :=
  "Futuristic logistics technology visualization related to ".toList

/-- Lines 101–116 of `generate_full_content`: extract the three tagged
sections from the (stripped) response text, convert markdown bold on the
post section, then apply the three truthiness fallbacks in order (the
image-prompt default interpolates the possibly-defaulted topic). -/
def generateFields (content : List Char) : GeneratedContent :=
  let topic0 := extract topic_start topic_end content
  let post0 := convert_markdown_bold (extract post_start post_end content)
  let img0 := extract image_prompt_start image_prompt_end content
  let topic := if topic0 = [] then topic_default else topic0
  let text := if post0 = [] then content else post0
  let img := if img0 = [] then image_prompt_template ++ topic else img0
  ⟨topic, text, img⟩

/-- `ContentGenerator.generate_full_content`: run the model-fallback loop,
then assemble the fields from the stripped response text. -/
def generate_full_content
    (provider : List Char → Except (List Char) (List Char)) :
    Except (Option (List Char)) GeneratedContent :=
  match tryModels provider model_fallbacks none with
  | Except.error e => Except.error e
  | Except.ok res => Except.ok (generateFields res.2)

theorem tryModels_all_fail
    (provider : List Char → Except (List Char) (List Char))
    (ms : List (List Char)) (lastExc : Option (List Char))
    (hfail : ∀ m ∈ ms, ∃ e, provider m = Except.error e) (hne : ms ≠ []) :
    ∃ e, provider (ms.getLast hne) = Except.error e ∧
      tryModels provider ms lastExc = Except.error (some e) := by
  induction ms generalizing lastExc with
  | nil => exact absurd rfl hne
  | cons m rest ih =>
    obtain ⟨e, he⟩ := hfail m (List.mem_cons_self _ _)
    cases rest with
    | nil =>
      refine ⟨e, ?_, ?_⟩
      · simpa using he
      · simp [tryModels, he]
    | cons r rs =>
      obtain ⟨e', he', hres⟩ := ih (some e)
        (fun x hx => hfail x (List.mem_cons_of_mem _ hx))
        (List.cons_ne_nil r rs)
      refine ⟨e', ?_, ?_⟩
      · rwa [List.getLast_cons (List.cons_ne_nil r rs)]
      · rw [tryModels, he]
        exact hres

/-- C4.  The model-fallback loop: a candidate whose request succeeds stops
the iteration at once with (the stripped text of) that response — no later
candidate is consulted, whatever the content looks like; a failing
candidate advances the iteration remembering its error; and when every
candidate of `model_fallbacks` fails, `generate_full_content` fails
carrying the error of the last candidate (`gemini-1.5-flash-latest`). -/
theorem model_fallback_spec :
    (∀ (provider : List Char → Except (List Char) (List Char))
       (m : List Char) (rest : List (List Char)) (lastExc : Option (List Char))
       (t : List Char), provider m = Except.ok t →
      tryModels provider (m :: rest) lastExc = Except.ok (m, pyStrip t)) ∧
    (∀ (provider : List Char → Except (List Char) (List Char))
       (m : List Char) (rest : List (List Char)) (lastExc : Option (List Char))
       (e : List Char), provider m = Except.error e →
      tryModels provider (m :: rest) lastExc = tryModels provider rest (some e)) ∧
    (∀ provider : List Char → Except (List Char) (List Char),
      (∀ m ∈ model_fallbacks, ∃ e, provider m = Except.error e) →
      ∃ e, provider "gemini-1.5-flash-latest".toList = Except.error e ∧
        generate_full_content provider = Except.error (some e)) := by
  refine ⟨?_, ?_, ?_⟩
  · intro provider m rest lastExc t h
    rw [tryModels, h]
  · intro provider m rest lastExc e h
    rw [tryModels, h]
  · intro provider hfail
    obtain ⟨e, he, hres⟩ := tryModels_all_fail provider model_fallbacks none hfail
      (by decide)
    refine ⟨e, ?_, ?_⟩
    · rwa [show (model_fallbacks.getLast (by decide))
        = "gemini-1.5-flash-latest".toList from rfl] at he
    · rw [generate_full_content, hres]

/-- Witness for C4: a provider succeeding on the first candidate stops
there; a provider failing everywhere surfaces its last error. -/
theorem model_fallback_spec_witness :
    tryModels
      (fun m => if m = "nano-banana-pro-preview".toList
        then Except.ok "  hi  ".toList else Except.error "boom".toList)
      model_fallbacks none
      = Except.ok ("nano-banana-pro-preview".toList, "hi".toList) ∧
    generate_full_content (fun _ => Except.error "down".toList)
      = Except.error (some "down".toList) := by
  constructor
  · have h := model_fallback_spec.1
      (fun m => if m = "nano-banana-pro-preview".toList
        then Except.ok "  hi  ".toList else Except.error "boom".toList)
      "nano-banana-pro-preview".toList
      ["gemini-3-flash-preview".toList, "gemini-2.0-flash-exp".toList,
        "gemini-1.5-flash-latest".toList]
      none "  hi  ".toList (by simp)
    rw [show model_fallbacks = "nano-banana-pro-preview".toList ::
      ["gemini-3-flash-preview".toList, "gemini-2.0-flash-exp".toList,
        "gemini-1.5-flash-latest".toList] from rfl, h]
    rw [show pyStrip "  hi  ".toList = "hi".toList from by decide]
  · obtain ⟨e, he, hres⟩ := model_fallback_spec.2.2
      (fun _ => Except.error "down".toList)
      (fun m _ => ⟨"down".toList, rfl⟩)
    have he2 : (Except.error "down".toList : Except (List Char) (List Char))
        = Except.error e := he
    have he3 : e = "down".toList := by
      injection he2 with h3
      exact h3.symm
    subst he3
    exact hres

theorem convert_markdown_bold_nil : convert_markdown_bold [] = [] := by
  simp [convert_markdown_bold]

theorem generateFields_topic_missing {content : List Char}
    (h : ¬ topic_start <:+: content) :
    (generateFields content).topic = topic_default := by
  rw [generateFields]
  simp only [extract_missing_start h]
  simp

theorem generateFields_text_missing {content : List Char}
    (h : ¬ post_start <:+: content) :
    (generateFields content).text = content := by
  rw [generateFields]
  simp only [extract_missing_start h, convert_markdown_bold_nil]
  simp

theorem generateFields_img_missing {content : List Char}
    (h : ¬ image_prompt_start <:+: content) :
    (generateFields content).image_prompt
      = image_prompt_template ++ (generateFields content).topic := by
  rw [generateFields]
  simp only [extract_missing_start h]
  simp [generateFields]

/-- C5.  Parsing of the tagged response.  First three conjuncts: whenever a
tag pair is well formed (the start tag occurs after a prefix not containing
it, the enclosed section does not contain either tag, and the start tag does
not recur later), `extract` returns exactly the enclosed substring trimmed
of surrounding whitespace — stated for each of the three tag pairs.  Last
three conjuncts: when a start tag is missing (the situation in which
`text.split(tag)[1]` raises `IndexError`), the corresponding field receives
its deterministic default: the constant topic placeholder, the entire raw
response text as body, and the templated image prompt interpolating the
(possibly defaulted) topic. -/
theorem tag_parsing_spec :
    (∀ a mid post, ¬ topic_start <:+: a →
      ¬ topic_start <:+: (mid ++ (topic_end ++ post)) → ¬ topic_end <:+: mid →
      extract topic_start topic_end
        (a ++ (topic_start ++ (mid ++ (topic_end ++ post)))) = pyStrip mid) ∧
    (∀ a mid post, ¬ post_start <:+: a →
      ¬ post_start <:+: (mid ++ (post_end ++ post)) → ¬ post_end <:+: mid →
      extract post_start post_end
        (a ++ (post_start ++ (mid ++ (post_end ++ post)))) = pyStrip mid) ∧
    (∀ a mid post, ¬ image_prompt_start <:+: a →
      ¬ image_prompt_start <:+: (mid ++ (image_prompt_end ++ post)) →
      ¬ image_prompt_end <:+: mid →
      extract image_prompt_start image_prompt_end
        (a ++ (image_prompt_start ++ (mid ++ (image_prompt_end ++ post))))
          = pyStrip mid) ∧
    (∀ content, ¬ topic_start <:+: content →
      (generateFields content).topic = topic_default) ∧
    (∀ content, ¬ post_start <:+: content →
      (generateFields content).text = content) ∧
    (∀ content, ¬ image_prompt_start <:+: content →
      (generateFields content).image_prompt
        = image_prompt_template ++ (generateFields content).topic) := by
  refine ⟨?_, ?_, ?_, ?_, ?_, ?_⟩
  · intro a mid post h1 h2 h3
    exact extract_wellFormed (by decide) (by decide) (by decide) (by decide) h1 h2 h3
  · intro a mid post h1 h2 h3
    exact extract_wellFormed (by decide) (by decide) (by decide) (by decide) h1 h2 h3
  · intro a mid post h1 h2 h3
    exact extract_wellFormed (by decide) (by decide) (by decide) (by decide) h1 h2 h3
  · intro content h
    exact generateFields_topic_missing h
  · intro content h
    exact generateFields_text_missing h
  · intro content h
    exact generateFields_img_missing h

/-- Witness for C5: a concrete well-formed topic section is extracted and
trimmed; a response without any tags receives all three defaults. -/
theorem tag_parsing_spec_witness :
    extract topic_start topic_end
      ("x".toList ++ (topic_start ++ (" My Topic ".toList
        ++ (topic_end ++ "y".toList)))) = "My Topic".toList ∧
    (generateFields "no tags here".toList).topic = topic_default ∧
    (generateFields "no tags here".toList).text = "no tags here".toList ∧
    (generateFields "no tags here".toList).image_prompt
      = image_prompt_template ++ topic_default := by
  have h1 := tag_parsing_spec.1 "x".toList " My Topic ".toList "y".toList
    (by decide) (by decide) (by decide)
  have h4 := tag_parsing_spec.2.2.2.1 "no tags here".toList (by decide)
  have h5 := tag_parsing_spec.2.2.2.2.1 "no tags here".toList (by decide)
  have h6 := tag_parsing_spec.2.2.2.2.2 "no tags here".toList (by decide)
  refine ⟨?_, h4, h5, ?_⟩
  · rw [h1]
    decide
  · rw [h6, h4]

/-- C10.  When none of the three start tags occurs in the response text
(so each extraction raises and every field falls back), the body is the raw
response text itself: markdown-bold conversion ran only on the extracted
post section before the fallback check, so the fallback body is not
normalized and may retain literal `**` markers. -/
theorem fallback_body_unconverted (content : List Char)
    (h1 : ¬ topic_start <:+: content) (h2 : ¬ post_start <:+: content)
    (h3 : ¬ image_prompt_start <:+: content) :
    (generateFields content).text = content :=
  generateFields_text_missing h2

/-- Witness for C10: a tag-free response containing `**this**` is returned
verbatim as the body — the emphasis markers survive even though
markdown-bold conversion would have rewritten them. -/
theorem fallback_body_unconverted_witness :
    (generateFields "Check **this** out".toList).text
      = "Check **this** out".toList ∧
    ['*', '*'] <:+: (generateFields "Check **this** out".toList).text := by
  have h := fallback_body_unconverted "Check **this** out".toList
    (by decide) (by decide) (by decide)
  refine ⟨h, ?_⟩
  rw [h]
  decide

/-! ## C8: non-emptiness of the generated fields -/

theorem generateFields_topic_eq (content : List Char) :
    (generateFields content).topic
      = if extract topic_start topic_end content = [] then topic_default
        else extract topic_start topic_end content := rfl

theorem generateFields_text_eq (content : List Char) :
    (generateFields content).text
      = if convert_markdown_bold (extract post_start post_end content) = []
        then content
        else convert_markdown_bold (extract post_start post_end content) := rfl

theorem generateFields_img_eq (content : List Char) :
    (generateFields content).image_prompt
      = if extract image_prompt_start image_prompt_end content = []
        then image_prompt_template ++ (generateFields content).topic
        else extract image_prompt_start image_prompt_end content := rfl

/-- C8, counterexample.  A provider whose first candidate succeeds with an
empty response text: `generate_full_content` returns normally, the topic and
image prompt receive their defaults, but the body field is the empty
string — so "every field non-empty" fails. -/
theorem generated_content_nonempty_counterexample :
    generate_full_content (fun _ => Except.ok ([] : List Char))
      = Except.ok ⟨topic_default, [], image_prompt_template ++ topic_default⟩ := by
  have e1 : extract topic_start topic_end [] = [] :=
    extract_missing_start (by decide)
  have e2 : extract post_start post_end [] = [] :=
    extract_missing_start (by decide)
  have e3 : extract image_prompt_start image_prompt_end [] = [] :=
    extract_missing_start (by decide)
  have h2 : generateFields []
      = ⟨topic_default, [], image_prompt_template ++ topic_default⟩ := by
    rw [generateFields]
    simp only [e1, e2, e3, convert_markdown_bold_nil]
    simp
  calc generate_full_content (fun _ => Except.ok ([] : List Char))
      = Except.ok (generateFields []) := rfl
    _ = Except.ok ⟨topic_default, [], image_prompt_template ++ topic_default⟩ := by
        rw [h2]

/-- C8 as amended.  For every generation call that returns, the topic and
image-prompt fields are non-empty (defaults applied on malformed
responses); the body field is non-empty whenever the stripped provider
response is non-empty — an entirely whitespace (or empty) provider response
is the one case that yields an empty body. -/
theorem generated_content_nonempty_amended :
    (∀ (provider : List Char → Except (List Char) (List Char))
       (f : GeneratedContent), generate_full_content provider = Except.ok f →
      f.topic ≠ [] ∧ f.image_prompt ≠ []) ∧
    (∀ content : List Char, content ≠ [] → (generateFields content).text ≠ []) := by
  have htop : ∀ content : List Char, (generateFields content).topic ≠ [] := by
    intro content
    rw [generateFields_topic_eq]
    by_cases h : extract topic_start topic_end content = []
    · rw [if_pos h]
      decide
    · rw [if_neg h]
      exact h
  have himg : ∀ content : List Char, (generateFields content).image_prompt ≠ [] := by
    intro content
    rw [generateFields_img_eq]
    by_cases h : extract image_prompt_start image_prompt_end content = []
    · rw [if_pos h]
      simp [image_prompt_template]
    · rw [if_neg h]
      exact h
  constructor
  · intro provider f hok
    rw [generate_full_content] at hok
    cases htm : tryModels provider model_fallbacks none with
    | error e =>
      rw [htm] at hok
      simp at hok
    | ok res =>
      rw [htm] at hok
      simp only [Except.ok.injEq] at hok
      subst hok
      exact ⟨htop res.2, himg res.2⟩
  · intro content hc
    rw [generateFields_text_eq]
    by_cases h : convert_markdown_bold (extract post_start post_end content) = []
    · rw [if_pos h]
      exact hc
    · rw [if_neg h]
      exact h

/-- Witness for C8: a provider answering `"hello"` yields a record whose
three fields are all non-empty. -/
theorem generated_content_nonempty_amended_witness :
    generate_full_content (fun _ => Except.ok "hello".toList)
      = Except.ok (generateFields "hello".toList) ∧
    (generateFields "hello".toList).topic ≠ [] ∧
    (generateFields "hello".toList).image_prompt ≠ [] ∧
    (generateFields "hello".toList).text ≠ [] := by
  have hok : generate_full_content (fun _ => Except.ok "hello".toList)
      = Except.ok (generateFields "hello".toList) := rfl
  obtain ⟨ht, hi⟩ := generated_content_nonempty_amended.1 _ _ hok
  have htext := generated_content_nonempty_amended.2 "hello".toList (by decide)
  exact ⟨hok, ht, hi, htext⟩

/-! ## C6: behaviour of `_convert_markdown_bold` on emphasis spans -/

theorem convert_markdown_bold_cons_open {rest content rest' : List Char}
    (hhead : rest.head? = some '*')
    (h : findClose rest.tail = some (content, rest')) :
    convert_markdown_bold ('*' :: rest)
      = smart_replace content ++ convert_markdown_bold rest' := by
  rw [convert_markdown_bold, if_pos ⟨rfl, hhead⟩]
  split
  · rename_i p heq
    rw [h] at heq
    simp only [Option.some.injEq] at heq
    rw [← heq]
  · rename_i heq
    rw [h] at heq
    simp at heq

theorem convert_markdown_bold_cons_other {c : Char} {rest : List Char}
    (h : ¬ (c = '*' ∧ rest.head? = some '*')) :
    convert_markdown_bold (c :: rest) = c :: convert_markdown_bold rest := by
  rw [convert_markdown_bold, if_neg h]

theorem star_mem_of_pair {x y : Char} {l : List Char}
    (h : [x, y] <:+: l) : x ∈ l := by
  rcases h with ⟨s, t, hst⟩
  rw [← hst]
  simp

/-- A span content satisfying the well-formedness conditions is closed by
`findClose` exactly at the explicit closing marker. -/
theorem findClose_append {content rest : List Char}
    (hnl : '\n' ∉ content) (hss : ¬ ['*', '*'] <:+: content)
    (hlast : content.getLast? ≠ some '*') :
    findClose (content ++ '*' :: '*' :: rest) = some (content, rest) := by
  induction content with
  | nil => simp [findClose]
  | cons c cs ih =>
    have hcond : ¬ (c = '*' ∧ (cs ++ '*' :: '*' :: rest).head? = some '*') := by
      rintro ⟨hc, hh⟩
      subst hc
      cases cs with
      | nil => exact hlast rfl
      | cons d cs' =>
        simp only [List.cons_append, List.head?_cons] at hh
        injection hh with hd
        subst hd
        exact hss ⟨[], cs' , rfl⟩
    have hnlc : c ≠ '\n' := fun hc => hnl (hc ▸ List.mem_cons_self _ _)
    rw [List.cons_append, findClose, if_neg hcond, if_neg hnlc]
    have hih : findClose (cs ++ '*' :: '*' :: rest) = some (cs, rest) := by
      refine ih (fun hm => hnl (List.mem_cons_of_mem _ hm))
        (fun hi => hss (infix_of_infix_tail hi)) ?_
      cases cs with
      | nil => simp
      | cons d cs' =>
        rw [List.getLast?_cons_cons] at hlast
        exact hlast
    rw [hih]
    rfl

/-- Behaviour of `_convert_markdown_bold` on one well-formed emphasis span:
the span is replaced by `smart_replace` of its content and conversion
continues after the closing marker. -/
theorem convert_markdown_bold_span {lit content rest : List Char}
    (hlit : '*' ∉ lit) (hnl : '\n' ∉ content)
    (hss : ¬ ['*', '*'] <:+: content) (hlast : content.getLast? ≠ some '*') :
    convert_markdown_bold (lit ++ ('*' :: '*' :: (content ++ '*' :: '*' :: rest)))
      = lit ++ (smart_replace content ++ convert_markdown_bold rest) := by
  induction lit with
  | nil =>
    simp only [List.nil_append]
    have hfc : (('*' :: (content ++ '*' :: '*' :: rest)).tail |> findClose)
        = some (content, rest) := by
      rw [List.tail_cons]
      exact findClose_append hnl hss hlast
    exact convert_markdown_bold_cons_open rfl hfc
  | cons c lit' ih =>
    have hc : c ≠ '*' := fun hc => hlit (hc ▸ List.mem_cons_self _ _)
    rw [List.cons_append,
      convert_markdown_bold_cons_other (fun hp => hc hp.1),
      ih (fun hm => hlit (List.mem_cons_of_mem _ hm)), List.cons_append]

/-- A text containing no `**` at all is left unchanged by
`_convert_markdown_bold` (the regex cannot match). -/
theorem convert_markdown_bold_no_marker {l : List Char}
    (h : ¬ ['*', '*'] <:+: l) : convert_markdown_bold l = l := by
  induction l with
  | nil => exact convert_markdown_bold_nil
  | cons c rest ih =>
    have hcond : ¬ (c = '*' ∧ rest.head? = some '*') := by
      rintro ⟨hc, hh⟩
      subst hc
      cases rest with
      | nil => simp at hh
      | cons d rest' =>
        injection hh with hd
        subst hd
        exact h ⟨[], rest', rfl⟩
    rw [convert_markdown_bold_cons_other hcond,
      ih (fun hi => h (infix_of_infix_tail hi))]

theorem convert_markdown_bold_cons_open_none {rest : List Char}
    (hhead : rest.head? = some '*') (h : findClose rest.tail = none) :
    convert_markdown_bold ('*' :: rest) = '*' :: convert_markdown_bold rest := by
  rw [convert_markdown_bold, if_pos ⟨rfl, hhead⟩]
  split
  · rename_i p heq
    rw [h] at heq
    simp at heq
  · rfl

theorem mem_of_getLast? {x : Char} {l : List Char}
    (h : l.getLast? = some x) : x ∈ l := by
  induction l with
  | nil => simp at h
  | cons c l' ih =>
    cases l' with
    | nil =>
      simp only [List.getLast?_singleton, Option.some.injEq] at h
      subst h
      exact List.mem_cons_self _ _
    | cons d l'' =>
      rw [List.getLast?_cons_cons] at h
      exact List.mem_cons_of_mem _ (ih h)

theorem pair_infix_append {x y : Char} {a b : List Char}
    (h : [x, y] <:+: a ++ b) :
    [x, y] <:+: a ∨ [x, y] <:+: b ∨
      (a.getLast? = some x ∧ b.head? = some y) := by
  induction a with
  | nil => exact Or.inr (Or.inl (by simpa using h))
  | cons c a' ih =>
    rw [List.cons_append] at h
    rcases List.infix_cons_iff.mp h with hpre | hinf
    · rcases List.cons_prefix_cons.mp hpre with ⟨hcx, htail⟩
      subst hcx
      cases a' with
      | nil =>
        refine Or.inr (Or.inr ⟨rfl, ?_⟩)
        rcases htail with ⟨t, ht⟩
        rw [List.nil_append] at ht
        rw [← ht]
        rfl
      | cons d a'' =>
        have hdy : y = d := by simpa using htail
        subst hdy
        exact Or.inl ⟨[], a'', rfl⟩
    · rcases ih hinf with h1 | h2 | ⟨h3, h4⟩
      · exact Or.inl (infix_of_infix_tail h1)
      · exact Or.inr (Or.inl h2)
      · refine Or.inr (Or.inr ⟨?_, h4⟩)
        cases a' with
        | nil => simp at h3
        | cons d a'' =>
          rw [List.getLast?_cons_cons]
          exact h3

theorem pair_infix_map {f : Char → Char} {x : Char} {l : List Char}
    (hf : ∀ c, f c = x → c = x) (h : [x, x] <:+: l.map f) : [x, x] <:+: l := by
  induction l with
  | nil => simpa using h
  | cons c l' ih =>
    rw [List.map_cons] at h
    rcases List.infix_cons_iff.mp h with hpre | hinf
    · rcases List.cons_prefix_cons.mp hpre with ⟨hcx, htail⟩
      have hc : c = x := hf c hcx.symm
      cases l' with
      | nil => simp at htail
      | cons d l'' =>
        rw [List.map_cons] at htail
        have hdx : x = f d := by simpa using htail
        have hd : d = x := hf d hdx.symm
        subst hc
        subst hd
        exact ⟨[], l'', rfl⟩
    · exact infix_of_infix_tail (ih hinf)

theorem translate_char_star {c : Char} (h : translate_char c = '*') : c = '*' := by
  rw [translate_char] at h
  cases hfind : (normal_table.zip bold_table).find? (fun p => p.1 = c) with
  | none =>
    rw [hfind] at h
    exact h
  | some p =>
    rw [hfind] at h
    have h2 : p.2 = '*' := h
    have hmem : p ∈ normal_table.zip bold_table := List.mem_of_find?_eq_some hfind
    have hp2 : p.2 ∈ bold_table := by
      obtain ⟨p1, p2⟩ := p
      exact (List.of_mem_zip hmem).2
    rw [h2] at hp2
    exact absurd hp2 (by decide)

theorem smart_replace_no_pair {content : List Char}
    (hss : ¬ ['*', '*'] <:+: content) :
    ¬ ['*', '*'] <:+: smart_replace content := by
  rw [smart_replace]
  by_cases h : word_count content ≤ 20
  · rw [if_pos h]
    intro hi
    exact hss (pair_infix_map (fun c hc => translate_char_star hc) hi)
  · rw [if_neg h]
    exact hss

theorem smart_replace_getLast {content : List Char}
    (hlast : content.getLast? ≠ some '*') :
    (smart_replace content).getLast? ≠ some '*' := by
  rw [smart_replace]
  by_cases h : word_count content ≤ 20
  · rw [if_pos h]
    intro hl
    rw [List.getLast?_map] at hl
    cases hg : content.getLast? with
    | none => rw [hg] at hl; simp at hl
    | some d =>
      rw [hg] at hl
      have hl2 : translate_char d = '*' := by simpa using hl
      exact hlast (by rw [hg, translate_char_star hl2])
  · rw [if_neg h]
    exact hlast

/-- Well-formedness of one (leading-literal, span-content) block: the
literal is asterisk-free, the content is newline-free, contains no `**`,
and does not end in `*`. -/
def spanOk (p : List Char × List Char) : Prop :=
  '*' ∉ p.1 ∧ '\n' ∉ p.2 ∧ ¬ ['*', '*'] <:+: p.2 ∧ p.2.getLast? ≠ some '*'

instance (p : List Char × List Char) : Decidable (spanOk p) := by
  unfold spanOk
  infer_instance

/-- A text consisting of literals interleaved with well-formed `**` spans,
ending in a final literal. -/
def assemble : List (List Char × List Char) → List Char → List Char
  | [], fin => fin
  | (lit, content) :: ps, fin =>
    lit ++ ('*' :: '*' :: (content ++ '*' :: '*' :: assemble ps fin))

/-- The converted form of such a text: markers dropped, each span content
passed through `smart_replace`. -/
def assembleConverted : List (List Char × List Char) → List Char → List Char
  | [], fin => fin
  | (lit, content) :: ps, fin => lit ++ (smart_replace content ++ assembleConverted ps fin)

theorem convert_assemble {ps : List (List Char × List Char)} {fin : List Char}
    (hps : ∀ p ∈ ps, spanOk p) (hfin : '*' ∉ fin) :
    convert_markdown_bold (assemble ps fin) = assembleConverted ps fin := by
  induction ps with
  | nil =>
    exact convert_markdown_bold_no_marker (fun hi => hfin (star_mem_of_pair hi))
  | cons p ps' ih =>
    obtain ⟨lit, content⟩ := p
    obtain ⟨h1, h2, h3, h4⟩ := hps (lit, content) (List.mem_cons_self _ _)
    rw [assemble, assembleConverted,
      convert_markdown_bold_span h1 h2 h3 h4,
      ih (fun q hq => hps q (List.mem_cons_of_mem _ hq))]

theorem no_pair_assembleConverted {ps : List (List Char × List Char)}
    {fin : List Char} (hps : ∀ p ∈ ps, spanOk p) (hfin : '*' ∉ fin) :
    ¬ ['*', '*'] <:+: assembleConverted ps fin := by
  induction ps with
  | nil =>
    intro hi
    exact hfin (star_mem_of_pair hi)
  | cons p ps' ih =>
    obtain ⟨lit, content⟩ := p
    obtain ⟨hl, hn, hs, hla⟩ := hps (lit, content) (List.mem_cons_self _ _)
    rw [assembleConverted]
    intro hi
    rcases pair_infix_append hi with hi1 | hi2 | ⟨hi3, _⟩
    · exact hl (star_mem_of_pair hi1)
    · rcases pair_infix_append hi2 with hj1 | hj2 | ⟨hj3, _⟩
      · exact smart_replace_no_pair hs hj1
      · exact ih (fun q hq => hps q (List.mem_cons_of_mem _ hq)) hj2
      · exact smart_replace_getLast hla hj3
    · exact hl (mem_of_getLast? hi3)

/-- C6, counterexample.  The input `"**"` (an unpaired emphasis marker) is
returned unchanged, so the output of the normalization can contain literal
asterisk emphasis markers — contradicting the claim's "the output contains
no literal asterisk emphasis markers". -/
theorem markdown_bold_counterexample :
    convert_markdown_bold ['*', '*'] = ['*', '*'] ∧
    ['*', '*'] <:+: convert_markdown_bold ['*', '*'] := by
  have h1 : convert_markdown_bold ['*'] = ['*'] := by
    rw [convert_markdown_bold_cons_other (by rintro ⟨_, hh⟩; simp at hh),
      convert_markdown_bold_nil]
  have hh : (['*'] : List Char).head? = some '*' := rfl
  have hn : findClose (['*'] : List Char).tail = none := rfl
  have h : convert_markdown_bold ['*', '*'] = ['*', '*'] := by
    rw [convert_markdown_bold_cons_open_none hh hn, h1]
  refine ⟨h, ?_⟩
  rw [h]

/-- C6 as amended.  A well-formed `**...**` span whose content has at most
20 words is transliterated character by character through the bold table
with the markers dropped; a span of more than 20 words only has its markers
dropped.  When the input consists of asterisk-free literals interleaved
with well-formed spans, the output contains no `**` at all and re-applying
the normalization leaves it unchanged.  (Unpaired markers, as in the
counterexample, survive in the output.) -/
theorem markdown_bold_amended :
    (∀ lit content rest : List Char, '*' ∉ lit → '\n' ∉ content →
      ¬ ['*', '*'] <:+: content → content.getLast? ≠ some '*' →
      word_count content ≤ 20 →
      convert_markdown_bold (lit ++ ('*' :: '*' :: (content ++ '*' :: '*' :: rest)))
        = lit ++ (content.map translate_char ++ convert_markdown_bold rest)) ∧
    (∀ lit content rest : List Char, '*' ∉ lit → '\n' ∉ content →
      ¬ ['*', '*'] <:+: content → content.getLast? ≠ some '*' →
      20 < word_count content →
      convert_markdown_bold (lit ++ ('*' :: '*' :: (content ++ '*' :: '*' :: rest)))
        = lit ++ (content ++ convert_markdown_bold rest)) ∧
    (∀ (ps : List (List Char × List Char)) (tail : List Char),
      (∀ p ∈ ps, spanOk p) → '*' ∉ tail →
      ¬ ['*', '*'] <:+: convert_markdown_bold (assemble ps tail) ∧
      convert_markdown_bold (convert_markdown_bold (assemble ps tail))
        = convert_markdown_bold (assemble ps tail)) := by
  refine ⟨?_, ?_, ?_⟩
  · intro lit content rest h1 h2 h3 h4 h5
    rw [convert_markdown_bold_span h1 h2 h3 h4, smart_replace, if_pos h5]
  · intro lit content rest h1 h2 h3 h4 h5
    rw [convert_markdown_bold_span h1 h2 h3 h4, smart_replace,
      if_neg (by omega : ¬ word_count content ≤ 20)]
  · intro ps tail hps htail
    have hc := convert_assemble hps htail
    have hn := no_pair_assembleConverted hps htail
    rw [hc]
    exact ⟨hn, convert_markdown_bold_no_marker hn⟩

/-- A concrete span content of exactly 20 words. -/
def span_words20 : List Char := "w w w w w w w w w w w w w w w w w w w w".toList

/-- A concrete span content of exactly 21 words. -/
def span_words21 : List Char := "w w w w w w w w w w w w w w w w w w w w w".toList

/-- Witness for C6: a span of exactly 20 words is bolded, a span of exactly
21 words is left plain with only the markers removed, and a well-formed
literal/span alternation converts to marker-free output that is a fixed
point of the normalization. -/
theorem markdown_bold_amended_witness :
    word_count span_words20 = 20 ∧
    convert_markdown_bold ([] ++ ('*' :: '*' :: (span_words20 ++ '*' :: '*' :: ([] : List Char))))
      = [] ++ (span_words20.map translate_char ++ convert_markdown_bold []) ∧
    word_count span_words21 = 21 ∧
    convert_markdown_bold ([] ++ ('*' :: '*' :: (span_words21 ++ '*' :: '*' :: ([] : List Char))))
      = [] ++ (span_words21 ++ convert_markdown_bold []) ∧
    ¬ ['*', '*'] <:+: convert_markdown_bold
        (assemble [("see ".toList, "big win".toList)] " done".toList) ∧
    convert_markdown_bold (convert_markdown_bold
        (assemble [("see ".toList, "big win".toList)] " done".toList))
      = convert_markdown_bold
        (assemble [("see ".toList, "big win".toList)] " done".toList) := by
  have h20 : word_count span_words20 = 20 := by decide
  have h21 : word_count span_words21 = 21 := by decide
  have hA := markdown_bold_amended.1 [] span_words20 []
    (by decide) (by decide) (by decide) (by decide) (by rw [h20])
  have hB := markdown_bold_amended.2.1 [] span_words21 []
    (by decide) (by decide) (by decide) (by decide) (by rw [h21]; omega)
  have hC := markdown_bold_amended.2.2 [("see ".toList, "big win".toList)]
    " done".toList (by decide) (by decide)
  exact ⟨h20, hA, h21, hB, hC.1, hC.2⟩

/-! ## `image_provider.py`: the acquisition fallback chain (C7, C9) -/

/-- One result of the DuckDuckGo image search; `result['image']` is the
candidate download URL. -/
structure DDGResult where
  image : List Char
deriving DecidableEq

/-- The outside world as `ImageProvider` sees it: whether a Gemini client
was configured, the per-model image-generation call, the DuckDuckGo image
search, and the URL download (status code and body bytes).  Raising calls
are modelled by `Except.error`. -/
structure ImageEnv where
  hasClient : Bool
  generate_images : List Char → List Char → Except (List Char) (List (List Nat))
  ddgs_images : List Char → Except (List Char) (List DDGResult)
  download : List Char → Except (List Char) (Nat × List Nat)

/-- The `image_models` list tried by `generate_and_save`. -/
def image_models : List (List Char) :=
  ["imagen-3.0-generate-001".toList, "nano-banana-pro-preview".toList]

/-- The Gemini loop of `generate_and_save` (lines 24–49): each model is
tried in order; an exception or an empty `generated_images` moves to the
next model; a non-empty result writes the first image and succeeds. -/
def tryGeminiModels (env : ImageEnv) (prompt : List Char) :
    List (List Char) → Option (List Nat)
  | [] => none
  | m :: rest =>
    match env.generate_images m prompt with
    | Except.ok imgs =>
      match imgs with
      | [] => tryGeminiModels env prompt rest
      | b :: _ => some b
    | Except.error _ => tryGeminiModels env prompt rest

/-- The download loop of `_search_via_duckduckgo` (lines 77–90): each of
the first five results is tried; a download exception or a non-200 status
moves to the next URL; a 200 response writes the body and succeeds. -/
def downloadFirst (env : ImageEnv) : List DDGResult → Option (List Nat)
  | [] => none
  | r :: rest =>
    match env.download r.image with
    | Except.ok p => if p.1 = 200 then some p.2 else downloadFirst env rest
    | Except.error _ => downloadFirst env rest

/-- `ImageProvider._search_via_duckduckgo` (lines 56–95): returns whether a
file was written together with the bytes written.  A search exception or an
empty result list yields `false`; otherwise the first five URLs are
tried. -/
def search_via_duckduckgo (env : ImageEnv) (prompt : List Char) :
    Bool × Option (List Nat) :=
  match env.ddgs_images prompt with
  | Except.error _ => (false, none)
  | Except.ok results =>
    if results = [] then (false, none)
    else
      match downloadFirst env (results.take 5) with
      | some data => (true, some data)
      | none => (false, none)

/-- `ImageProvider.generate_and_save` (lines 16–54): the Gemini models are
tried when a client is configured, then the DuckDuckGo search is the final
fallback. -/
def generate_and_save (env : ImageEnv) (prompt : List Char) :
    Bool × Option (List Nat) :=
  if env.hasClient then
    match tryGeminiModels env prompt image_models with
    | some b => (true, some b)
    | none => search_via_duckduckgo env prompt
  else search_via_duckduckgo env prompt

/-- Every configured Gemini model either raises or returns no images. -/
def geminiFails (env : ImageEnv) (prompt : List Char) : Prop :=
  ∀ m ∈ image_models, (∃ e, env.generate_images m prompt = Except.error e) ∨
    env.generate_images m prompt = Except.ok []

/-- The web-search strategy is exhausted: the search raises, or finds
nothing, or each of the first five download attempts raises or returns a
non-200 status. -/
def ddgFails (env : ImageEnv) (prompt : List Char) : Prop :=
  (∃ e, env.ddgs_images prompt = Except.error e) ∨
  env.ddgs_images prompt = Except.ok [] ∨
  (∃ rs, env.ddgs_images prompt = Except.ok rs ∧ rs ≠ [] ∧
    ∀ r ∈ rs.take 5, (∃ e, env.download r.image = Except.error e) ∨
      (∃ p, env.download r.image = Except.ok p ∧ p.1 ≠ 200))

theorem tryGeminiModels_none_iff (env : ImageEnv) (prompt : List Char)
    (ms : List (List Char)) :
    tryGeminiModels env prompt ms = none ↔
      ∀ m ∈ ms, (∃ e, env.generate_images m prompt = Except.error e) ∨
        env.generate_images m prompt = Except.ok [] := by
  induction ms with
  | nil => simp [tryGeminiModels]
  | cons m rest ih =>
    cases hg : env.generate_images m prompt with
    | error e =>
      have heq : tryGeminiModels env prompt (m :: rest)
          = tryGeminiModels env prompt rest := by
        rw [tryGeminiModels, hg]
      rw [heq, ih]
      constructor
      · intro h m' hm'
        rcases List.mem_cons.mp hm' with h' | h'
        · subst h'
          exact Or.inl ⟨e, hg⟩
        · exact h m' h'
      · intro h m' hm'
        exact h m' (List.mem_cons_of_mem _ hm')
    | ok imgs =>
      cases imgs with
      | nil =>
        have heq : tryGeminiModels env prompt (m :: rest)
            = tryGeminiModels env prompt rest := by
          rw [tryGeminiModels, hg]
        rw [heq, ih]
        constructor
        · intro h m' hm'
          rcases List.mem_cons.mp hm' with h' | h'
          · subst h'
            exact Or.inr hg
          · exact h m' h'
        · intro h m' hm'
          exact h m' (List.mem_cons_of_mem _ hm')
      | cons b bs =>
        have heq : tryGeminiModels env prompt (m :: rest) = some b := by
          rw [tryGeminiModels, hg]
        rw [heq]
        constructor
        · intro h
          exact absurd h (by simp)
        · intro h
          rcases h m (List.mem_cons_self _ _) with ⟨e, he⟩ | he
          · rw [hg] at he
            exact absurd he (by simp)
          · rw [hg] at he
            simp at he

theorem downloadFirst_none_iff (env : ImageEnv) (rs : List DDGResult) :
    downloadFirst env rs = none ↔
      ∀ r ∈ rs, (∃ e, env.download r.image = Except.error e) ∨
        (∃ p, env.download r.image = Except.ok p ∧ p.1 ≠ 200) := by
  induction rs with
  | nil => simp [downloadFirst]
  | cons r rest ih =>
    cases hd : env.download r.image with
    | error e =>
      have heq : downloadFirst env (r :: rest) = downloadFirst env rest := by
        rw [downloadFirst, hd]
      rw [heq, ih]
      constructor
      · intro h r' hr'
        rcases List.mem_cons.mp hr' with h' | h'
        · subst h'
          exact Or.inl ⟨e, hd⟩
        · exact h r' h'
      · intro h r' hr'
        exact h r' (List.mem_cons_of_mem _ hr')
    | ok p =>
      have heq0 : downloadFirst env (r :: rest)
          = if p.1 = 200 then some p.2 else downloadFirst env rest := by
        rw [downloadFirst, hd]
      by_cases hst : p.1 = 200
      · have heq : downloadFirst env (r :: rest) = some p.2 := by
          rw [heq0, if_pos hst]
        rw [heq]
        constructor
        · intro h
          exact absurd h (by simp)
        · intro h
          rcases h r (List.mem_cons_self _ _) with ⟨e, he⟩ | ⟨q, hq, hq200⟩
          · rw [hd] at he
            exact absurd he (by simp)
          · rw [hd] at hq
            simp only [Except.ok.injEq] at hq
            exact absurd (hq ▸ hst) hq200
      · have heq : downloadFirst env (r :: rest) = downloadFirst env rest := by
          rw [heq0, if_neg hst]
        rw [heq, ih]
        constructor
        · intro h r' hr'
          rcases List.mem_cons.mp hr' with h' | h'
          · subst h'
            exact Or.inr ⟨p, hd, hst⟩
          · exact h r' h'
        · intro h r' hr'
          exact h r' (List.mem_cons_of_mem _ hr')

theorem search_shape (env : ImageEnv) (prompt : List Char) :
    search_via_duckduckgo env prompt = (false, none) ∨
      ∃ b, search_via_duckduckgo env prompt = (true, some b) := by
  cases hd : env.ddgs_images prompt with
  | error e =>
    exact Or.inl (by simp only [search_via_duckduckgo, hd])
  | ok results =>
    by_cases hrs : results = []
    · exact Or.inl (by simp only [search_via_duckduckgo, hd, if_pos hrs])
    · cases hdl : downloadFirst env (results.take 5) with
      | none =>
        exact Or.inl (by simp only [search_via_duckduckgo, hd, if_neg hrs, hdl])
      | some data =>
        exact Or.inr ⟨data, by simp only [search_via_duckduckgo, hd, if_neg hrs, hdl]⟩

theorem search_false_iff (env : ImageEnv) (prompt : List Char) :
    (search_via_duckduckgo env prompt).1 = false ↔ ddgFails env prompt := by
  cases hd : env.ddgs_images prompt with
  | error e =>
    have heq : search_via_duckduckgo env prompt = (false, none) := by
      simp only [search_via_duckduckgo, hd]
    rw [heq]
    exact ⟨fun _ => Or.inl ⟨e, hd⟩, fun _ => rfl⟩
  | ok results =>
    by_cases hrs : results = []
    · have heq : search_via_duckduckgo env prompt = (false, none) := by
        simp only [search_via_duckduckgo, hd, if_pos hrs]
      rw [heq]
      subst hrs
      exact ⟨fun _ => Or.inr (Or.inl hd), fun _ => rfl⟩
    · cases hdl : downloadFirst env (results.take 5) with
      | none =>
        have heq : search_via_duckduckgo env prompt = (false, none) := by
          simp only [search_via_duckduckgo, hd, if_neg hrs, hdl]
        rw [heq]
        refine ⟨fun _ => Or.inr (Or.inr ⟨results, hd, hrs,
          (downloadFirst_none_iff env (results.take 5)).mp hdl⟩), fun _ => rfl⟩
      | some data =>
        have heq : search_via_duckduckgo env prompt = (true, some data) := by
          simp only [search_via_duckduckgo, hd, if_neg hrs, hdl]
        rw [heq]
        constructor
        · intro h
          exact absurd h (by simp)
        · intro h
          rcases h with ⟨e, he⟩ | he | ⟨rs, hrs2, hne, hall⟩
          · rw [hd] at he
            exact absurd he (by simp)
          · rw [hd] at he
            simp only [Except.ok.injEq] at he
            exact absurd he hrs
          · rw [hd] at hrs2
            simp only [Except.ok.injEq] at hrs2
            subst hrs2
            have hdn := (downloadFirst_none_iff env (results.take 5)).mpr hall
            rw [hdl] at hdn
            exact absurd hdn (by simp)

/-- C7.  `generate_and_save` never raises (it is a total boolean-returning
function of the environment): it returns `true` exactly when some strategy
wrote bytes to the destination, and it returns `false` exactly when every
configured strategy is exhausted — every configured Gemini model raised or
returned no image, and the web search raised, found nothing, or had all of
its first five downloads fail.  In particular any exception inside one
strategy only advances the chain, never aborts it. -/
theorem generate_and_save_spec (env : ImageEnv) (prompt : List Char) :
    ((generate_and_save env prompt).1 = true ↔
      ∃ b, (generate_and_save env prompt).2 = some b) ∧
    ((generate_and_save env prompt).1 = false ↔
      ((env.hasClient = true → geminiFails env prompt) ∧ ddgFails env prompt)) := by
  rw [generate_and_save]
  cases hcl : env.hasClient with
  | false =>
    simp only [Bool.false_eq_true, if_false]
    constructor
    · rcases search_shape env prompt with hs | ⟨b, hs⟩
      · rw [hs]
        simp
      · rw [hs]
        simp
    · rw [search_false_iff]
      constructor
      · intro h
        exact ⟨fun hc => absurd hc (by simp), h⟩
      · intro h
        exact h.2
  | true =>
    simp only [if_true]
    cases htg : tryGeminiModels env prompt image_models with
    | some b =>
      simp only
      constructor
      · simp
      · constructor
        · intro h
          exact absurd h (by simp)
        · intro h
          have := (tryGeminiModels_none_iff env prompt image_models).mpr (h.1 (by trivial))
          rw [htg] at this
          exact absurd this (by simp)
    | none =>
      simp only
      have hgem := (tryGeminiModels_none_iff env prompt image_models).mp htg
      constructor
      · rcases search_shape env prompt with hs | ⟨b, hs⟩
        · rw [hs]
          simp
        · rw [hs]
          simp
      · rw [search_false_iff]
        constructor
        · intro h
          exact ⟨fun _ => hgem, h⟩
        · intro h
          exact h.2

/-- An environment in which both Gemini models raise, the web search
raises, and yet every URL download would succeed with a 200 response (PNG
magic bytes).  If the chain ended with a URL-based generative image
service, acquisition would download from it and succeed here. -/
def url_service_env : ImageEnv :=
  ImageEnv.mk true
    (fun _ _ => Except.error "quota exceeded".toList)
    (fun _ => Except.error "rate limited".toList)
    (fun _ => Except.ok (200, [137, 80, 78, 71]))

/-- C9, counterexample.  In `url_service_env` every download succeeds, so a
final URL-based generative strategy (percent-encoded prompt in a templated
endpoint, result downloaded) would have written the image and returned
`true`; the code instead returns `(false, none)` once the Gemini models and
the web search have failed — no such final strategy exists in the chain. -/
theorem image_chain_no_url_service_counterexample :
    generate_and_save url_service_env "industrial robot".toList = (false, none) ∧
    (∀ url, url_service_env.download url = Except.ok (200, [137, 80, 78, 71])) := by
  exact ⟨rfl, fun url => rfl⟩

/-- C9 as amended.  The acquisition chain ends with the web image search:
whenever a client is configured and every Gemini model fails, acquisition
is exactly the DuckDuckGo search — nothing runs after it. -/
theorem image_chain_final_strategy_amended (env : ImageEnv) (prompt : List Char)
    (hcl : env.hasClient = true) (hg : geminiFails env prompt) :
    generate_and_save env prompt = search_via_duckduckgo env prompt := by
  rw [generate_and_save, if_pos hcl,
    (tryGeminiModels_none_iff env prompt image_models).mpr hg]

/-- Witness for C9 at the concrete failing environment. -/
theorem image_chain_final_strategy_amended_witness :
    url_service_env.hasClient = true ∧
    generate_and_save url_service_env "p".toList
      = search_via_duckduckgo url_service_env "p".toList := by
  refine ⟨rfl, image_chain_final_strategy_amended url_service_env "p".toList rfl ?_⟩
  intro m _
  exact Or.inl ⟨"quota exceeded".toList, rfl⟩
